import Mathlib

/-!
Verification development for the core of the Shanghai IRC framework:
the priority event dispatcher (`shanghai/event.py`), the IRC message
codec (`shanghai/irc/message.py`), the CTCP sub-codec
(`shanghai/plugins/ctcp.py`), and the capability registry
(`shanghai/util.py`).

Python strings that are processed character by character are embedded as
`List Char`; strings used only as opaque keys (event names, attribute
names) are embedded as `String`.  Fallible Python code (code that can
raise) is embedded as `Except String _`, the error string recording the
kind of exception raised.
-/

set_option linter.unusedSectionVars false

namespace Shanghai

/-! ## Priority event dispatcher (`shanghai/event.py`)

`_PrioritizedSetList` manages a list of handler sets keyed by priority,
always sorted by descending priority.  Python sets are embedded as
`List H` (their iteration order is unspecified; the list order stands for
one such order).  Handlers are drawn from an arbitrary type `H` with
decidable equality. -/

variable {H : Type} [DecidableEq H]

/-- One `_PrioritizedSetList`: a list of (priority, handler set) pairs. -/
abbrev PSL (H : Type) : Type := List (Int × List H)

/-- `obj in self` for `_PrioritizedSetList.__contains__`:
`any(obj in set_ for _, set_ in self)`. -/
def pslContains (l : PSL H) (o : H) : Prop := ∃ pr ∈ l, o ∈ pr.2

instance (l : PSL H) (o : H) : Decidable (pslContains l o) :=
  inferInstanceAs (Decidable (∃ pr ∈ l, o ∈ pr.2))

/-- The insertion loop of `_PrioritizedSetList.add`: scan for the first
group with a strictly smaller priority and insert a new group before it;
on finding an equal priority, add the object to that group's set; if the
scan runs off the end, append a new group. -/
def pslInsert (priority : Int) (o : H) : PSL H → PSL H
  | [] => [(priority, [o])]
  | (prio, s) :: rest =>
    if priority > prio then (priority, [o]) :: (prio, s) :: rest
    else if priority = prio then (prio, s ++ [o]) :: rest
    else (prio, s) :: pslInsert priority o rest

/-- `_PrioritizedSetList.add`: raises `ValueError` if the object is
already present in any group, otherwise inserts it at its priority. -/
def pslAdd (priority : Int) (o : H) (l : PSL H) : Except String (PSL H) :=
  if pslContains l o then .error "ValueError: has already been added"
  else .ok (pslInsert priority o l)

/-- `_PrioritizedSetList.remove`: removes the object from the first group
containing it, deleting the group if its set becomes empty; raises
`ValueError` if no group contains it. -/
def pslRemove (o : H) : PSL H → Except String (PSL H)
  | [] => .error "ValueError: can not be found"
  | (prio, s) :: rest =>
    if o ∈ s then
      let s' := s.erase o
      if s' = [] then .ok rest else .ok ((prio, s') :: rest)
    else
      match pslRemove o rest with
      | .ok rest' => .ok ((prio, s) :: rest')
      | .error e => .error e

/-- The result of awaiting one handler task under
`asyncio.gather(..., return_exceptions=True)`: the handler raised an
exception, returned the `ReturnValue.EAT` sentinel, returned `None`,
or returned some other (unrecognized) value. -/
inductive HResult : Type
  | exc : HResult
  | eat : HResult
  | noneVal : HResult
  | other : HResult
deriving DecidableEq

/-- Dispatch over the groups of one event name
(`EventDispatcher.dispatch`, loop body): for each group, tasks are
created for all of its handlers and gathered; exceptions are logged and
otherwise ignored; if any result is the EAT sentinel the dispatch stops
after this group and reports consumption.  The returned pair is the list
of handlers that were invoked (in invocation-group order) and whether
the event was consumed. -/
def dispatchTiers (f : H → HResult) : PSL H → List H × Bool
  | [] => ([], false)
  | (_, hs) :: rest =>
    let eaten := hs.any fun h => f h = HResult.eat
    if eaten then (hs, true)
    else
      let r := dispatchTiers f rest
      (hs ++ r.1, r.2)

/-- An `EventDispatcher.event_map`: a Python dict from event name to
`_PrioritizedSetList`, embedded as an association list with unique keys
looked up first-match. -/
abbrev EventMap (H : Type) : Type := List (String × PSL H)

/-- Dict update: replace the value of an existing key in place, or
append a new binding. -/
def assocSet (k : String) (v : PSL H) : EventMap H → EventMap H
  | [] => [(k, v)]
  | (k', v') :: rest =>
    if k' = k then (k, v) :: rest else (k', v') :: assocSet k v rest

/-- Dict lookup returning the first binding for the key. -/
def assocGet (m : EventMap H) (k : String) : Option (PSL H) :=
  (m.find? fun kv => kv.1 = k).map Prod.snd

/-- `EventDispatcher.register` (after the coroutine-function check):
`self.event_map[name].add(priority, coroutine)`.  `event_map` is a
`defaultdict`, so a missing name starts from an empty list.  The event
name is NOT validated here. -/
def registerHandler (m : EventMap H) (name : String) (h : H) (priority : Int) :
    Except String (EventMap H) :=
  let psl := (assocGet m name).getD []
  match pslAdd priority h psl with
  | .ok psl' => .ok (assocSet name psl' m)
  | .error e => .error e

/-- `EventDispatcher.unregister`: `self.event_map[name].remove(coroutine)`
(again via the `defaultdict`). -/
def unregisterHandler (m : EventMap H) (name : String) (h : H) :
    Except String (EventMap H) :=
  let psl := (assocGet m name).getD []
  match pslRemove h psl with
  | .ok psl' => .ok (assocSet name psl' m)
  | .error e => .error e

/-- `EventDispatcher.dispatch`: returns immediately (not consumed) when
the name has no entry in `event_map`, otherwise walks the prioritized
groups.  The Python method returns `ReturnValue.EAT` on consumption and
`None` otherwise; this is embedded as the `Bool` component. -/
def dispatchEvent (m : EventMap H) (name : String) (f : H → HResult) :
    List H × Bool :=
  match assocGet m name with
  | none => ([], false)
  | some tiers => dispatchTiers f tiers

/-- `EventDecorator.__call__`'s name check: when `allowed_names` is a
non-empty set, an unknown event name raises `ValueError`; a `None` or
empty `allowed_names` disables the check. -/
def decoratorCheck (allowed : Option (List String)) (name : String) :
    Except String Unit :=
  match allowed with
  | some ns =>
    if ns ≠ [] then
      if name ∈ ns then .ok () else .error "ValueError: Unknown event name"
    else .ok ()
  | none => .ok ()

/-- `EventDecorator.__call__` followed by the registration the returned
decorator performs: check the name, then register. -/
def decoratorRegister (allowed : Option (List String)) (m : EventMap H)
    (name : String) (h : H) (priority : Int) : Except String (EventMap H) :=
  match decoratorCheck allowed name with
  | .ok _ => registerHandler m name h priority
  | .error e => .error e

/-- `GlobalEventName.__members__.values()`: the global namespace. -/
def globalAllowedNames : List String := ["init_network_context"]

/-- `NetworkEventName.__members__.values()`: the per-network namespace. -/
def networkAllowedNames : List String :=
  ["connected", "disconnected", "close_request", "message", "raw_line"]

/-- The registration-table invariant of `_PrioritizedSetList`
(spec §3, "Handler registration table"): group priorities strictly
descending (hence no duplicates), no group's set empty, and every
handler in at most one group, once. -/
def pslInv (l : PSL H) : Prop :=
  (l.map Prod.fst).Pairwise (· > ·) ∧
  (∀ pr ∈ l, pr.2 ≠ []) ∧
  (l.map Prod.snd).flatten.Nodup

instance (l : PSL H) : Decidable (pslInv l) := by
  unfold pslInv; infer_instance

/-! ## Python string primitives

Embeddings of the Python `str` operations the codec uses, over
`List Char`.  All inputs of interest are ASCII, so the ASCII readings of
`str.upper`, `str.isdigit` and the whitespace class are faithful. -/

/-- The Python whitespace class (`str.split()`/`str.strip()` defaults),
restricted to ASCII. -/
def pyIsSpace (c : Char) : Bool :=
  c = ' ' || c = '\t' || c = '\n' || c = '\r' || c = '\x0b' || c = '\x0c'

/-- `s.split(None, 1)`: strip leading whitespace; if nothing remains the
result is empty; otherwise the first whitespace-run-delimited token,
followed by the remainder with its leading whitespace stripped (omitted
when empty). -/
def pySplitNone1 (l : List Char) : List (List Char) :=
  match l.dropWhile pyIsSpace with
  | [] => []
  | d :: s' =>
    let tok := (d :: s').takeWhile fun c => !pyIsSpace c
    let rest := ((d :: s').dropWhile fun c => !pyIsSpace c).dropWhile pyIsSpace
    if rest = [] then [tok] else [tok, rest]

/-- Heads surviving `dropWhile` fail the predicate (termination fact for
the parameter loop below). -/
theorem dropWhile_head_false {α : Type} (p : α → Bool) :
    ∀ (l : List α) (a : α) (t : List α), l.dropWhile p = a :: t → p a = false := by
  intro l
  induction l with
  | nil => intro a t h; simp at h
  | cons x xs ih =>
    intro a t h
    by_cases hp : p x = true
    · rw [List.dropWhile_cons, if_pos hp] at h
      exact ih a t h
    · rw [List.dropWhile_cons, if_neg hp] at h
      cases h
      simpa using hp

/-- The remainder returned by `split(None, 1)` is strictly shorter than
the input (termination fact for the parameter loop below). -/
theorem pySplitNone1_rest_length {l a b : List Char} {t : List (List Char)}
    (h : pySplitNone1 l = a :: b :: t) : b.length < l.length := by
  unfold pySplitNone1 at h
  cases hs : l.dropWhile pyIsSpace with
  | nil => rw [hs] at h; simp at h
  | cons d s' =>
    rw [hs] at h
    have hd : pyIsSpace d = false := dropWhile_head_false pyIsSpace l d s' hs
    by_cases hr : ((d :: s').dropWhile fun c => !pyIsSpace c).dropWhile pyIsSpace = []
    · simp only [hr, if_pos] at h
      simp at h
    · simp only [hr, if_neg, reduceIte] at h
      have hb : b = ((d :: s').dropWhile fun c => !pyIsSpace c).dropWhile pyIsSpace := by
        cases h; rfl
      have h1 : ((d :: s').dropWhile fun c => !pyIsSpace c) =
          s'.dropWhile fun c => !pyIsSpace c := by
        rw [List.dropWhile_cons]
        simp [hd]
      have h2 : b.length ≤ (s'.dropWhile fun c => !pyIsSpace c).length := by
        rw [hb, h1]
        exact (List.dropWhile_sublist pyIsSpace).length_le
      have h3 : (s'.dropWhile fun c => !pyIsSpace c).length ≤ s'.length :=
        (List.dropWhile_sublist _).length_le

      have h4 : (d :: s').length ≤ l.length := by
        have := (List.dropWhile_sublist (l := l) pyIsSpace).length_le
        rw [hs] at this
        exact this
      simp only [List.length_cons] at h4
      omega

/-- The scanner behind `s.split()`: `cur` is the (reversed) word being
built; whitespace flushes it, other characters extend it. -/
def pySplitWsGo (cur : List Char) : List Char → List (List Char)
  | [] => if cur = [] then [] else [cur.reverse]
  | c :: rest =>
    if pyIsSpace c then
      if cur = [] then pySplitWsGo [] rest
      else cur.reverse :: pySplitWsGo [] rest
    else pySplitWsGo (c :: cur) rest

/-- `s.split()` (no arguments): whitespace-run-delimited words, with no
empty words. -/
def pySplitWs (l : List Char) : List (List Char) := pySplitWsGo [] l

/-- `s.split(sep, 1)` for a one-character separator, specialized to the
case `sep in s`: the part before the first occurrence and the part after
it. -/
def splitFirst (sep : Char) (l : List Char) : List Char × List Char :=
  ((l.takeWhile fun c => c != sep), (l.dropWhile fun c => c != sep).tail)

/-- `s.split(sep, 1)` for a one-character separator: two parts when the
separator occurs, otherwise the whole string as one part. -/
def pySplitChar1 (sep : Char) (l : List Char) : List (List Char) :=
  if sep ∈ l then [(splitFirst sep l).1, (splitFirst sep l).2] else [l]

/-- `s.split(sep)` for a one-character separator (no maxsplit): empty
parts are kept, and an empty input yields one empty part. -/
def pySplitChar (sep : Char) : List Char → List (List Char)
  | [] => [[]]
  | c :: rest =>
    if c = sep then [] :: pySplitChar sep rest
    else
      match pySplitChar sep rest with
      | [] => [[c]]
      | w :: ws => (c :: w) :: ws

/-- `s.upper()` (ASCII). -/
def pyUpper (l : List Char) : List Char := l.map Char.toUpper

/-- `s.isdigit()` (ASCII): non-empty and all digits. -/
def pyIsDigit (l : List Char) : Bool := !l.isEmpty && l.all Char.isDigit

/-- `s.rstrip()`: drop trailing whitespace. -/
def pyRstrip (l : List Char) : List Char := (l.reverse.dropWhile pyIsSpace).reverse

/-- Generic Python dict assignment `d[k] = v` over an insertion-ordered
association list: overwrite in place, or append a new binding. -/
def dictSet {α β : Type} [DecidableEq α] (k : α) (v : β) :
    List (α × β) → List (α × β)
  | [] => [(k, v)]
  | (k', v') :: rest =>
    if k' = k then (k, v) :: rest else (k', v') :: dictSet k v rest

/-! ## IRC message codec (`shanghai/irc/message.py`) -/

/-- The value of one IRCv3 message tag: a (unescaped) string, or the
boolean `True` for a tag written without `=`. -/
inductive TagValue : Type
  | str (s : List Char) : TagValue
  | boolTrue : TagValue
deriving DecidableEq

/-- `_ESCAPE_SEQUENCES.get(char, char)`: the fixed tag-value unescape
table; unrecognized escaped characters pass through unchanged. -/
def unescapeChar (c : Char) : Char :=
  if c = 'n' then '\n'
  else if c = 'r' then '\r'
  else if c = 's' then ' '
  else if c = '\\' then '\\'
  else if c = ':' then ';'
  else c

/-- The loop of `Message.unescape`, with the `escape` flag explicit.  A
trailing unmatched backslash is dropped (the loop ends with the flag
set). -/
def unescapeGo : Bool → List Char → List Char
  | _, [] => []
  | true, c :: rest => unescapeChar c :: unescapeGo false rest
  | false, c :: rest =>
    if c = '\\' then unescapeGo true rest else c :: unescapeGo false rest

/-- `Message.unescape`. -/
def unescape (l : List Char) : List Char := unescapeGo false l

/-- The `Prefix` named tuple: `name`, optional `ident`, optional `host`.
(The source class name is a Lean keyword, hence `IrcPrefix`; its
`prefix` field likewise becomes `prfx` where it appears in `Message`.) -/
structure IrcPrefix : Type where
  name : List Char
  ident : Option (List Char)
  host : Option (List Char)
deriving DecidableEq

namespace IrcPrefix

/-- `Prefix.from_string`: strip leading `:`; split `name@host` at the
first `@`, then `name!ident` at the first `!`. -/
def fromString (s : List Char) : IrcPrefix :=
  let name := s.dropWhile fun c => c == ':'
  if '@' ∈ name then
    let nh := splitFirst '@' name
    if '!' ∈ nh.1 then
      let ni := splitFirst '!' nh.1
      ⟨ni.1, some ni.2, some nh.2⟩
    else ⟨nh.1, none, some nh.2⟩
  else ⟨name, none, none⟩

/-- Python truthiness of an optional string field: `None` and the empty
string are falsy. -/
def optTruthy : Option (List Char) → Bool
  | none => false
  | some [] => false
  | some (_ :: _) => true

/-- `Prefix.__str__`: the name, followed (only when `host` is truthy) by
`!ident` (only when `ident` is truthy) and `@host`. -/
def toStr (p : IrcPrefix) : List Char :=
  p.name ++
    (if optTruthy p.host then
      (if optTruthy p.ident then '!' :: p.ident.getD [] else []) ++
        '@' :: p.host.getD []
    else [])

/-- The domain of representable origin annotations on which
stringification round-trips with parsing (see the round-trip theorems):
absent fields are `none` rather than empty strings, the name does not
begin with `:` and contains no `@`, an ident occurs only alongside a
host, the name contains no `!` when a host is present, and an ident
contains no `@`. -/
def wf (p : IrcPrefix) : Prop :=
  p.name.dropWhile (fun c => c == ':') = p.name ∧
  ¬ '@' ∈ p.name ∧
  match p.host, p.ident with
  | none, none => True
  | none, some _ => False
  | some h, none => h ≠ [] ∧ ¬ '!' ∈ p.name
  | some h, some i => h ≠ [] ∧ i ≠ [] ∧ ¬ '!' ∈ p.name ∧ ¬ '@' ∈ i

end IrcPrefix

/-- Modelled from the spec: the numeric-reply taxonomy (`ServerReply`,
`shanghai/irc/server_reply.py`) is imported by the codec but its source
is not under `src/`.  Spec §6 describes it as "an external enumeration
mapping three-digit reply codes to symbolic names"; only the identifier
for code 001 (the conventional welcome reply) is needed by any claim, so
only it is modelled and every other code maps to no identifier. -/
inductive ServerReply : Type
  | RPL_WELCOME : ServerReply
deriving DecidableEq

/-- Modelled from the spec: `ServerReply(command)` as a partial lookup
from code strings to identifiers. -/
def serverReplyOfCode (code : List Char) : Option ServerReply :=
  if code = "001".data then some ServerReply.RPL_WELCOME else none

/-- A parsed command: a plain (upper-cased) string, or a well-known
numeric-reply identifier. -/
inductive IrcCommand : Type
  | str (s : List Char) : IrcCommand
  | reply (r : ServerReply) : IrcCommand
deriving DecidableEq

/-- The `Message` class: command, optional origin annotation, parameter
list, tag mapping, and the original raw line (absent when a message is
built directly, as the CTCP sub-codec does). -/
structure Message : Type where
  command : IrcCommand
  prfx : Option IrcPrefix
  params : List (List Char)
  tags : List (List Char × TagValue)
  rawLine : Option (List Char)
deriving DecidableEq

namespace Message

/-- One iteration body of the tag loop of `Message.from_line`: a tag
with `=` maps its key to the unescaped value, one without maps to
boolean true. -/
def addTag (d : List (List Char × TagValue)) (tag : List Char) :
    List (List Char × TagValue) :=
  if '=' ∈ tag then
    let kv := splitFirst '=' tag
    dictSet kv.1 (TagValue.str (unescape kv.2)) d
  else dictSet tag TagValue.boolTrue d

/-- The trailing `while line:` parameter loop of `Message.from_line`: a
part starting with `:` contributes the rest of the line verbatim and
stops; otherwise the next whitespace-delimited token is a parameter.
`param, *line = line.split(None, 1)` raises `ValueError` if the split
yields nothing (unreachable for parseable lines, kept faithfully). -/
def paramsGo : Nat → List Char → Except String (List (List Char))
  | _, [] => .ok []
  | 0, _ :: _ => .error "fuel exhausted (unreachable)"
  | fuel + 1, c :: rest =>
    if c = ':' then .ok [rest]
    else
      match pySplitNone1 (c :: rest) with
      | [] => .error "ValueError: not enough values to unpack"
      | [param] => .ok [param]
      | param :: restLine :: _ =>
        match paramsGo fuel restLine with
        | .ok ps => .ok (param :: ps)
        | .error e => .error e

/-- The parameter loop, with enough fuel that the exhaustion branch is
unreachable: by `pySplitNone1_rest_length` every iteration strictly
shortens the line. -/
def paramsLoop (l : List Char) : Except String (List (List Char)) :=
  paramsGo (l.length + 1) l

/-- `Message.from_line`: split off the tag segment (when the line starts
with `@`) and the origin segment (when the remainder starts with `:`),
upper-case the command and resolve all-digit commands through the
numeric-reply taxonomy (keeping the raw numeral on no match), then
collect parameters; the original line is retained. -/
def fromLine (line : List Char) : Except String Message :=
  let rawLine := line
  let step1 : Except String (List (List Char × TagValue) × List Char) :=
    if line.head? = some '@' then
      match pySplitNone1 line with
      | [tagString, rest] =>
        .ok ((pySplitChar ';' tagString.tail).foldl addTag [], rest)
      | _ => .error "ValueError: not enough values to unpack"
    else .ok ([], line)
  match step1 with
  | .error e => .error e
  | .ok (tags, line) =>
    let step2 : Except String (Option IrcPrefix × List Char) :=
      if line.head? = some ':' then
        match pySplitNone1 line with
        | [prefixStr, rest] => .ok (some (IrcPrefix.fromString prefixStr), rest)
        | _ => .error "ValueError: not enough values to unpack"
      else .ok (none, line)
    match step2 with
    | .error e => .error e
    | .ok (prfx, line) =>
      match pySplitNone1 line with
      | [] => .error "ValueError: not enough values to unpack"
      | cmdTok :: restList =>
        let cmd := pyUpper cmdTok
        let command :=
          if pyIsDigit cmd then
            match serverReplyOfCode cmd with
            | some r => IrcCommand.reply r
            | none => IrcCommand.str cmd
          else IrcCommand.str cmd
        match restList with
        | [] => .ok ⟨command, prfx, [], tags, some rawLine⟩
        | rest :: _ =>
          match paramsLoop rest with
          | .ok params => .ok ⟨command, prfx, params, tags, some rawLine⟩
          | .error e => .error e

end Message

/-! ## CTCP sub-codec (`shanghai/plugins/ctcp.py`) -/

/-- `CtcpMessage.from_message`: extraction of a CTCP command from a chat
message.  `msg.params[1]` is indexed without a length check, so a
`PRIVMSG` with fewer than two parameters raises `IndexError`. -/
def ctcpFromMessage (msg : Message) : Except String (Option Message) :=
  if ¬ msg.command = IrcCommand.str "PRIVMSG".data then .ok none
  else
    match msg.params.get? 1 with
    | none => .error "IndexError: list index out of range"
    | some line =>
      if ¬ line.head? = some '\x01' ∨ ¬ line.getLast? = some '\x01' then .ok none
      else
        let interior := pyRstrip line.tail.dropLast
        if interior = [] then .ok none
        else
          match pySplitChar1 ' ' interior with
          | [] => .error "ValueError: not enough values to unpack"
          | ctcpCmd :: restParams =>
            if ctcpCmd = [] then .ok none
            else
              let ctcpParams :=
                match restParams with
                | [] => []
                | r :: _ => pySplitWs r
              .ok (some ⟨IrcCommand.str (pyUpper ctcpCmd), msg.prfx, ctcpParams, [], none⟩)

/-- The CTCP extraction contract stated from the claim's words (amended
only on messages with fewer than two parameters, where the code indexes
out of range): extraction applies only to chat (`PRIVMSG`) messages;
with at least two parameters it yields nothing unless the second
parameter is wrapped in `0x01` at both ends and the interior, after
trimming trailing whitespace, is non-empty with a non-empty first
space-delimited token; on success the command is that token upper-cased,
the parameters are the remaining tokens split on whitespace, and the
original message's origin annotation is preserved. -/
def ctcpExtractSpec (msg : Message) : Except String (Option Message) :=
  if msg.command ≠ IrcCommand.str "PRIVMSG".data then .ok none
  else if msg.params.length < 2 then .error "IndexError: list index out of range"
  else
    let second := msg.params.getD 1 []
    let interior := pyRstrip second.tail.dropLast
    let cmdTok := interior.takeWhile fun c => c != ' '
    if second.head? = some '\x01' ∧ second.getLast? = some '\x01' ∧
        interior ≠ [] ∧ cmdTok ≠ [] then
      .ok (some ⟨IrcCommand.str (pyUpper cmdTok), msg.prfx,
        pySplitWs ((interior.dropWhile fun c => c != ' ').tail), [], none⟩)
    else .ok none

/-- The payload built by `send_ctcp`: prepend a space to a truthy text,
then interpolate command and text between two `0x01` bytes.  A `None`
text is interpolated by `str.format` as the four characters `None`. -/
def sendCtcpPayload (command : List Char) (text : Option (List Char)) : List Char :=
  let text :=
    match text with
    | some t => if t ≠ [] then some (' ' :: t) else some t
    | none => none
  let textStr :=
    match text with
    | some t => t
    | none => "None".data
  '\x01' :: (command ++ textStr) ++ ['\x01']

/-- The payload built by `send_ctcp_reply` (textually identical to
`send_ctcp`; only the delivery call differs). -/
def sendCtcpReplyPayload (command : List Char) (text : Option (List Char)) : List Char :=
  let text :=
    match text with
    | some t => if t ≠ [] then some (' ' :: t) else some t
    | none => none
  let textStr :=
    match text with
    | some t => t
    | none => "None".data
  '\x01' :: (command ++ textStr) ++ ['\x01']

/-! ## Capability registry (`shanghai/util.py`) -/

/-- The observable state of a `ShadowAttributesMixin` object: the names
resolvable as instance attributes, the names resolvable as class
attributes, and the `_added_attributes` dict. -/
structure Shadow (V : Type) : Type where
  instAttrs : List String
  classAttrs : List String
  added : List (String × V)

/-- `hasattr(self, name)`: ordinary lookup (instance then class), with
`__getattr__` falling through to the added-capability table. -/
def hasAttr {V : Type} (s : Shadow V) (name : String) : Prop :=
  name ∈ s.instAttrs ∨ name ∈ s.classAttrs ∨ name ∈ s.added.map Prod.fst

instance {V : Type} (s : Shadow V) (name : String) : Decidable (hasAttr s name) := by
  unfold hasAttr; infer_instance

/-- `ShadowAttributesMixin.add_attribute`: raises `KeyError` when the
name already resolves (declared attribute or previously added
capability). -/
def addAttribute {V : Type} (s : Shadow V) (name : String) (v : V) :
    Except String (Shadow V) :=
  if hasAttr s name then .error "KeyError: already defined"
  else .ok { s with added := dictSet name v s.added }

/-- `ShadowAttributesMixin.set_attribute`: raises `KeyError` for a name
in the instance dict, or for one never added. -/
def setAttribute {V : Type} (s : Shadow V) (name : String) (v : V) :
    Except String (Shadow V) :=
  if name ∈ s.instAttrs then .error "KeyError"
  else if ¬ name ∈ s.added.map Prod.fst then .error "KeyError: not defined"
  else .ok { s with added := dictSet name v s.added }

/-- `ShadowAttributesMixin.remove_attribute`: raises `KeyError` for a
name never added; otherwise deletes its binding. -/
def removeAttribute {V : Type} (s : Shadow V) (name : String) :
    Except String (Shadow V) :=
  if ¬ name ∈ s.added.map Prod.fst then .error "KeyError: not defined"
  else .ok { s with added := s.added.eraseP fun kv => kv.1 == name }

/-- One successful-mutation step on a `_PrioritizedSetList`. -/
inductive PslOp (H : Type) : Type
  | add (priority : Int) (o : H) : PslOp H
  | remove (o : H) : PslOp H

/-- Apply one operation. -/
def applyOp : PslOp H → PSL H → Except String (PSL H)
  | .add p o, l => pslAdd p o l
  | .remove o, l => pslRemove o l

/-- Run a sequence of operations, failing as soon as one fails. -/
def runOps : List (PslOp H) → PSL H → Except String (PSL H)
  | [], l => .ok l
  | op :: ops, l =>
    match applyOp op l with
    | .ok l' => runOps ops l'
    | .error e => .error e

/-! ## Dispatch lemmas -/

/-- When no handler of any group returns EAT, dispatch invokes every
handler, group by group, and reports no consumption. -/
theorem dispatchTiers_no_eat (f : H → HResult) :
    ∀ tiers : PSL H, (∀ pr ∈ tiers, ∀ h ∈ pr.2, f h ≠ HResult.eat) →
      dispatchTiers f tiers = ((tiers.map Prod.snd).flatten, false) := by
  intro tiers
  induction tiers with
  | nil => intro _; rfl
  | cons pr rest ih =>
    intro hno
    obtain ⟨p, hs⟩ := pr
    have h1 : (hs.any fun h => decide (f h = HResult.eat)) = false := by
      simp only [List.any_eq_false, decide_eq_true_eq]
      intro h hh
      exact hno (p, hs) (List.mem_cons_self _ _) h hh
    have h2 := ih fun pr hpr => hno pr (List.mem_cons_of_mem _ hpr)
    simp only [dispatchTiers, h1, Bool.false_eq_true, if_false, h2,
      List.map_cons, List.flatten_cons]

/-- When some handler of a group returns EAT and no handler of an
earlier group does, dispatch invokes exactly the handlers up to and
including that group and reports consumption. -/
theorem dispatchTiers_eaten (f : H → HResult) :
    ∀ (pre : PSL H) (p : Int) (T : List H) (post : PSL H),
      (∀ pr ∈ pre, ∀ h ∈ pr.2, f h ≠ HResult.eat) →
      (∃ h ∈ T, f h = HResult.eat) →
      dispatchTiers f (pre ++ (p, T) :: post) =
        (((pre ++ [(p, T)]).map Prod.snd).flatten, true) := by
  intro pre
  induction pre with
  | nil =>
    intro p T post _ heat
    have h1 : (T.any fun h => decide (f h = HResult.eat)) = true := by
      simp only [List.any_eq_true, decide_eq_true_eq]
      exact heat
    simp only [List.nil_append, dispatchTiers, h1, if_true, List.map_cons,
      List.map_nil, List.flatten_cons, List.flatten_nil, List.append_nil]
  | cons pr rest ih =>
    intro p T post hno heat
    obtain ⟨q, s⟩ := pr
    have h1 : (s.any fun h => decide (f h = HResult.eat)) = false := by
      simp only [List.any_eq_false, decide_eq_true_eq]
      intro h hh
      exact hno (q, s) (List.mem_cons_self _ _) h hh
    have h2 := ih p T post (fun pr hpr => hno pr (List.mem_cons_of_mem _ hpr)) heat
    simp only [List.cons_append, dispatchTiers, h1, Bool.false_eq_true, if_false,
      List.append_eq, h2, List.map_cons, List.flatten_cons]

/-- Every handler of a group whose preceding groups do not consume is
invoked (whatever the handlers of its own group return). -/
theorem mem_dispatchTiers_of_prefix (f : H → HResult) :
    ∀ (pre : PSL H) (p : Int) (T : List H) (post : PSL H),
      (∀ pr ∈ pre, ∀ x ∈ pr.2, f x ≠ HResult.eat) →
      ∀ x ∈ T, x ∈ (dispatchTiers f (pre ++ (p, T) :: post)).1 := by
  intro pre
  induction pre with
  | nil =>
    intro p T post _ x hx
    simp only [List.nil_append, dispatchTiers]
    by_cases h1 : (T.any fun h => decide (f h = HResult.eat)) = true
    · simp only [h1, if_true]
      exact hx
    · simp only [h1, if_false]
      exact List.mem_append_left _ hx
  | cons pr rest ih =>
    intro p T post hno x hx
    obtain ⟨q, s⟩ := pr
    have h1 : (s.any fun h => decide (f h = HResult.eat)) = false := by
      simp only [List.any_eq_false, decide_eq_true_eq]
      intro h hh
      exact hno (q, s) (List.mem_cons_self _ _) h hh
    have h2 := ih p T post (fun pr hpr => hno pr (List.mem_cons_of_mem _ hpr)) x hx
    simp only [List.cons_append, dispatchTiers, h1, Bool.false_eq_true, if_false]
    exact List.mem_append_right _ h2

/-- Dispatch depends on handler results only through whether each one is
the EAT sentinel. -/
theorem dispatchTiers_congr_eat (f f' : H → HResult)
    (hff : ∀ h, f h = HResult.eat ↔ f' h = HResult.eat) :
    ∀ tiers : PSL H, dispatchTiers f tiers = dispatchTiers f' tiers := by
  intro tiers
  induction tiers with
  | nil => rfl
  | cons pr rest ih =>
    obtain ⟨p, hs⟩ := pr
    have h1 : (hs.any fun h => decide (f h = HResult.eat)) =
        (hs.any fun h => decide (f' h = HResult.eat)) := by
      cases hab : hs.any fun h => decide (f' h = HResult.eat) with
      | false =>
        rw [List.any_eq_false] at hab ⊢
        intro x hx
        simp only [decide_eq_true_eq] at hab ⊢
        exact fun hc => hab x hx ((hff x).mp hc)
      | true =>
        rw [List.any_eq_true] at hab ⊢
        obtain ⟨x, hx, hx2⟩ := hab
        simp only [decide_eq_true_eq] at hx2 ⊢
        exact ⟨x, hx, (hff x).mpr hx2⟩
    simp only [dispatchTiers, h1, ih]

/-! ## `_PrioritizedSetList` lemmas -/

/-- `remove` fails exactly on objects no group contains. -/
theorem pslRemove_isOk_false_iff (o : H) :
    ∀ l : PSL H, (pslRemove o l).isOk = false ↔ ¬ pslContains l o := by
  intro l
  induction l with
  | nil =>
    simp only [pslRemove, Except.isOk, Except.toBool]
    simp [pslContains]
  | cons pr rest ih =>
    obtain ⟨p, s⟩ := pr
    by_cases hs : o ∈ s
    · have hcont : pslContains ((p, s) :: rest) o :=
        ⟨(p, s), List.mem_cons_self _ _, hs⟩
      simp only [pslRemove, if_pos hs]
      split
      · simp only [Except.isOk, Except.toBool]
        simpa using hcont
      · simp only [Except.isOk, Except.toBool]
        simpa using hcont
    · have hcont : pslContains ((p, s) :: rest) o ↔ pslContains rest o := by
        constructor
        · rintro ⟨pr, hpr, ho⟩
          rcases List.mem_cons.mp hpr with heq | hmem
          · rw [heq] at ho
            exact absurd ho hs
          · exact ⟨pr, hmem, ho⟩
        · rintro ⟨pr, hpr, ho⟩
          exact ⟨pr, List.mem_cons_of_mem _ hpr, ho⟩
      simp only [pslRemove, if_neg hs]
      cases hrem : pslRemove o rest with
      | ok r =>
        rw [hrem] at ih
        simp only [Except.isOk, Except.toBool] at ih ⊢
        simp only [hcont]
        simpa using ih
      | error e =>
        rw [hrem] at ih
        simp only [Except.isOk, Except.toBool] at ih ⊢
        simp only [hcont]
        simpa using ih

/-- The priorities after an insertion are the new priority or old ones. -/
theorem mem_fst_pslInsert (p q : Int) (o : H) :
    ∀ l : PSL H, q ∈ (pslInsert p o l).map Prod.fst →
      q = p ∨ q ∈ l.map Prod.fst := by
  intro l
  induction l with
  | nil =>
    simp [pslInsert]
  | cons pr rest ih =>
    obtain ⟨prio, s⟩ := pr
    simp only [pslInsert]
    by_cases h1 : p > prio
    · rw [if_pos h1]
      intro hq
      simp only [List.map_cons, List.mem_cons] at hq ⊢
      tauto
    · rw [if_neg h1]
      by_cases h2 : p = prio
      · rw [if_pos h2]
        intro hq
        simp only [List.map_cons, List.mem_cons] at hq ⊢
        tauto
      · rw [if_neg h2]
        intro hq
        simp only [List.map_cons, List.mem_cons] at hq ⊢
        rcases hq with hq | hq
        · tauto
        · rcases ih hq with hq' | hq' <;> tauto

/-- Insertion keeps the priorities strictly descending. -/
theorem pairwise_fst_pslInsert (p : Int) (o : H) :
    ∀ l : PSL H, (l.map Prod.fst).Pairwise (· > ·) →
      ((pslInsert p o l).map Prod.fst).Pairwise (· > ·) := by
  intro l
  induction l with
  | nil =>
    intro _
    simp [pslInsert]
  | cons pr rest ih =>
    intro hs
    obtain ⟨prio, s⟩ := pr
    simp only [List.map_cons, List.pairwise_cons] at hs
    obtain ⟨hgt, hrest⟩ := hs
    simp only [pslInsert]
    by_cases h1 : p > prio
    · rw [if_pos h1]
      simp only [List.map_cons, List.pairwise_cons]
      refine ⟨?_, hgt, hrest⟩
      intro q hq
      simp only [List.map_cons, List.mem_cons] at hq
      rcases hq with hq | hq
      · rw [hq]
        exact h1
      · exact lt_trans (hgt q hq) h1
    · rw [if_neg h1]
      by_cases h2 : p = prio
      · rw [if_pos h2]
        simp only [List.map_cons, List.pairwise_cons]
        exact ⟨hgt, hrest⟩
      · rw [if_neg h2]
        simp only [List.map_cons, List.pairwise_cons]
        refine ⟨?_, ih hrest⟩
        intro q hq
        rcases mem_fst_pslInsert p q o rest hq with hq' | hq'
        · rw [hq']
          rcases lt_trichotomy p prio with h | h | h
          · exact h
          · exact absurd h h2
          · exact absurd h (by simpa using h1)
        · exact hgt q hq'

/-- Insertion keeps every group's set non-empty. -/
theorem nonempty_pslInsert (p : Int) (o : H) :
    ∀ l : PSL H, (∀ pr ∈ l, pr.2 ≠ []) →
      ∀ pr ∈ pslInsert p o l, pr.2 ≠ [] := by
  intro l
  induction l with
  | nil =>
    intro _ pr hpr
    simp only [pslInsert, List.mem_singleton] at hpr
    rw [hpr]
    simp
  | cons hd rest ih =>
    intro hne pr hpr
    obtain ⟨prio, s⟩ := hd
    simp only [pslInsert] at hpr
    by_cases h1 : p > prio
    · rw [if_pos h1] at hpr
      rcases List.mem_cons.mp hpr with heq | hmem
      · rw [heq]
        simp
      · exact hne pr hmem
    · rw [if_neg h1] at hpr
      by_cases h2 : p = prio
      · rw [if_pos h2] at hpr
        rcases List.mem_cons.mp hpr with heq | hmem
        · rw [heq]
          simp
        · exact hne pr (List.mem_cons_of_mem _ hmem)
      · rw [if_neg h2] at hpr
        rcases List.mem_cons.mp hpr with heq | hmem
        · rw [heq]
          exact hne (prio, s) (List.mem_cons_self _ _)
        · exact ih (fun x hx => hne x (List.mem_cons_of_mem _ hx)) pr hmem

/-- The handlers after an insertion are a permutation of the new handler
consed onto the old handlers. -/
theorem flatten_pslInsert_perm (p : Int) (o : H) :
    ∀ l : PSL H, ((pslInsert p o l).map Prod.snd).flatten.Perm
      (o :: (l.map Prod.snd).flatten) := by
  intro l
  induction l with
  | nil =>
    simp [pslInsert]
  | cons hd rest ih =>
    obtain ⟨prio, s⟩ := hd
    simp only [pslInsert]
    by_cases h1 : p > prio
    · rw [if_pos h1]
      simp
    · rw [if_neg h1]
      by_cases h2 : p = prio
      · rw [if_pos h2]
        simp only [List.map_cons, List.flatten_cons]
        rw [List.append_assoc]
        exact List.perm_middle
      · rw [if_neg h2]
        simp only [List.map_cons, List.flatten_cons]
        exact (List.Perm.append_left s ih).trans List.perm_middle

/-- Membership in some group is membership in the flattened handlers. -/
theorem pslContains_iff_mem_flatten (o : H) :
    ∀ l : PSL H, pslContains l o ↔ o ∈ (l.map Prod.snd).flatten := by
  intro l
  constructor
  · rintro ⟨pr, hpr, ho⟩
    simp only [List.mem_flatten]
    exact ⟨pr.2, List.mem_map_of_mem Prod.snd hpr, ho⟩
  · intro hm
    simp only [List.mem_flatten] at hm
    obtain ⟨s, hs, ho⟩ := hm
    obtain ⟨pr, hpr, heq⟩ := List.mem_map.mp hs
    exact ⟨pr, hpr, heq ▸ ho⟩

/-- A successful `add` preserves the registration-table invariant. -/
theorem pslInv_add {p : Int} {o : H} {l l' : PSL H}
    (hinv : pslInv l) (hadd : pslAdd p o l = .ok l') : pslInv l' := by
  unfold pslAdd at hadd
  by_cases hcont : pslContains l o
  · rw [if_pos hcont] at hadd
    exact absurd hadd (by simp)
  · rw [if_neg hcont] at hadd
    obtain ⟨hpair, hne, hnd⟩ := hinv
    injection hadd with hadd
    subst hadd
    refine ⟨pairwise_fst_pslInsert p o l hpair, nonempty_pslInsert p o l hne, ?_⟩
    refine (flatten_pslInsert_perm p o l).symm.nodup ?_
    refine List.Nodup.cons ?_ hnd
    rw [← pslContains_iff_mem_flatten]
    exact hcont

/-- A successful `remove` keeps the priorities a sublist, the handlers a
sublist, and every group non-empty. -/
theorem pslRemove_ok_props (o : H) :
    ∀ {l l' : PSL H}, pslRemove o l = .ok l' →
      (l'.map Prod.fst).Sublist (l.map Prod.fst) ∧
      ((l'.map Prod.snd).flatten).Sublist ((l.map Prod.snd).flatten) ∧
      ((∀ pr ∈ l, pr.2 ≠ []) → ∀ pr ∈ l', pr.2 ≠ []) := by
  intro l
  induction l with
  | nil =>
    intro l' h
    exact absurd h (by simp [pslRemove])
  | cons hd rest ih =>
    intro l' h
    obtain ⟨p, s⟩ := hd
    simp only [pslRemove] at h
    by_cases hs : o ∈ s
    · rw [if_pos hs] at h
      by_cases hemp : s.erase o = []
      · rw [if_pos hemp] at h
        injection h with h
        subst h
        refine ⟨?_, ?_, ?_⟩
        · simp only [List.map_cons]
          exact List.sublist_cons_self _ _
        · simp only [List.map_cons, List.flatten_cons]
          exact List.sublist_append_right _ _
        · intro hne pr hpr
          exact hne pr (List.mem_cons_of_mem _ hpr)
      · rw [if_neg hemp] at h
        injection h with h
        subst h
        refine ⟨?_, ?_, ?_⟩
        · simp only [List.map_cons]
          exact List.Sublist.refl _
        · simp only [List.map_cons, List.flatten_cons]
          exact (List.erase_sublist o s).append (List.Sublist.refl _)
        · intro hne pr hpr
          rcases List.mem_cons.mp hpr with heq | hmem
          · rw [heq]
            exact hemp
          · exact hne pr (List.mem_cons_of_mem _ hmem)
    · rw [if_neg hs] at h
      cases hrem : pslRemove o rest with
      | ok r =>
        rw [hrem] at h
        injection h with h
        subst h
        obtain ⟨h1, h2, h3⟩ := ih hrem
        refine ⟨?_, ?_, ?_⟩
        · simp only [List.map_cons]
          exact h1.cons₂ _
        · simp only [List.map_cons, List.flatten_cons]
          exact h2.append_left s
        · intro hne pr hpr
          rcases List.mem_cons.mp hpr with heq | hmem
          · rw [heq]
            exact hne (p, s) (List.mem_cons_self _ _)
          · exact h3 (fun x hx => hne x (List.mem_cons_of_mem _ hx)) pr hmem
      | error e =>
        rw [hrem] at h
        exact absurd h (by simp)

/-- A successful `remove` preserves the registration-table invariant. -/
theorem pslInv_remove {o : H} {l l' : PSL H}
    (hinv : pslInv l) (hrem : pslRemove o l = .ok l') : pslInv l' := by
  obtain ⟨hpair, hne, hnd⟩ := hinv
  obtain ⟨h1, h2, h3⟩ := pslRemove_ok_props o hrem
  exact ⟨hpair.sublist h1, h3 hne, hnd.sublist h2⟩

/-- Every successful operation preserves the invariant. -/
theorem pslInv_step {op : PslOp H} {l l' : PSL H}
    (hinv : pslInv l) (hstep : applyOp op l = .ok l') : pslInv l' := by
  cases op with
  | add p o => exact pslInv_add hinv hstep
  | remove o => exact pslInv_remove hinv hstep

/-- Running operations from an invariant-satisfying state preserves the
invariant. -/
theorem runOps_inv :
    ∀ (ops : List (PslOp H)) {l0 l : PSL H}, pslInv l0 →
      runOps ops l0 = .ok l → pslInv l := by
  intro ops
  induction ops with
  | nil =>
    intro l0 l hinv h
    simp only [runOps] at h
    injection h with h
    exact h ▸ hinv
  | cons op rest ih =>
    intro l0 l hinv h
    simp only [runOps] at h
    cases hstep : applyOp op l0 with
    | ok l1 =>
      rw [hstep] at h
      exact ih (pslInv_step hinv hstep) h
    | error e =>
      rw [hstep] at h
      exact absurd h (by simp)

/-! ## Claim theorems -/

/-- C1: dispatch processes the registered groups in strictly descending
priority order, invoking every handler of a group before any handler of
a lower-priority group; if some handler of a group returns the consume
signal, no lower-priority group's handlers are invoked and dispatch
returns "consumed"; otherwise every registered handler is invoked and
dispatch returns "not consumed", immediately so (without error) when no
handler is registered for the name.  The first component of
`dispatchEvent` lists the invoked handlers in invocation-group order, so
under the descending-sorted invariant it is the concatenation of the
groups in descending priority order, truncated after the first consuming
group. -/
theorem dispatch_priority_order_and_consumption
    (m : EventMap H) (name : String) (f : H → HResult) :
    (assocGet m name = none → dispatchEvent m name f = ([], false)) ∧
    (∀ tiers : PSL H, assocGet m name = some tiers →
      (tiers.map Prod.fst).Pairwise (· > ·) →
      ((∀ pr ∈ tiers, ∀ h ∈ pr.2, f h ≠ HResult.eat) →
        dispatchEvent m name f = ((tiers.map Prod.snd).flatten, false)) ∧
      (∀ (pre : PSL H) (p : Int) (T : List H) (post : PSL H),
        tiers = pre ++ (p, T) :: post →
        (∀ pr ∈ pre, ∀ h ∈ pr.2, f h ≠ HResult.eat) →
        (∃ h ∈ T, f h = HResult.eat) →
        dispatchEvent m name f = (((pre ++ [(p, T)]).map Prod.snd).flatten, true))) := by
  constructor
  · intro hnone
    simp only [dispatchEvent, hnone]
  · intro tiers hsome _
    constructor
    · intro hno
      simp only [dispatchEvent, hsome]
      exact dispatchTiers_no_eat f tiers hno
    · intro pre p T post hdecomp hnopre heat
      simp only [dispatchEvent, hsome, hdecomp]
      exact dispatchTiers_eaten f pre p T post hnopre heat

/-- Witness for C1 at a concrete dispatcher state: three priority groups,
a handler of the middle group consumes, so exactly the handlers of the
first two groups run and dispatch reports consumption. -/
theorem dispatch_priority_order_and_consumption_witness :
    dispatchEvent (H := Nat) [("message", [(5, [1]), (0, [2, 3]), (-10, [4])])]
      "message" (fun n => if n = 2 then HResult.eat else HResult.noneVal) =
      ([1, 2, 3], true) := by
  have h := (dispatch_priority_order_and_consumption
    (H := Nat) [("message", [(5, [1]), (0, [2, 3]), (-10, [4])])] "message"
    (fun n => if n = 2 then HResult.eat else HResult.noneVal)).2
    [(5, [1]), (0, [2, 3]), (-10, [4])] rfl (by decide)
  have h2 := h.2 [(5, [1])] 0 [2, 3] [(-10, [4])] rfl (by decide) (by decide)
  exact h2.trans (by decide)

/-- C2: a handler raising an exception during dispatch is invisible to
the dispatch caller: (1) the entire dispatch outcome — invoked handlers
and return value — is the same as if the failing handler had returned
`None`, so the failure never reaches the return value, never stops a
later group, and never propagates (the embedded dispatch is total); (2)
all sibling handlers of any group whose preceding groups do not consume
are awaited; (3) with no consumption anywhere, every registered handler
is awaited. -/
theorem handler_exception_isolated
    (m : EventMap H) (name : String) (f : H → HResult) (h : H)
    (hexc : f h = HResult.exc) :
    (dispatchEvent m name f =
      dispatchEvent m name fun x => if x = h then HResult.noneVal else f x) ∧
    (∀ (tiers pre : PSL H) (p : Int) (T : List H) (post : PSL H),
      assocGet m name = some tiers →
      tiers = pre ++ (p, T) :: post →
      (∀ pr ∈ pre, ∀ x ∈ pr.2, f x ≠ HResult.eat) →
      ∀ x ∈ T, x ∈ (dispatchEvent m name f).1) ∧
    (∀ tiers : PSL H, assocGet m name = some tiers →
      (∀ pr ∈ tiers, ∀ x ∈ pr.2, f x ≠ HResult.eat) →
      ∀ pr ∈ tiers, ∀ x ∈ pr.2, x ∈ (dispatchEvent m name f).1) := by
  refine ⟨?_, ?_, ?_⟩
  · have hff : ∀ x, f x = HResult.eat ↔
        (fun x => if x = h then HResult.noneVal else f x) x = HResult.eat := by
      intro x
      by_cases hx : x = h
      · subst hx
        simp only [if_pos rfl, hexc]
        constructor <;> intro hc <;> cases hc
      · simp only [if_neg hx]
    unfold dispatchEvent
    cases assocGet m name with
    | none => rfl
    | some tiers => exact dispatchTiers_congr_eat f _ hff tiers
  · intro tiers pre p T post hsome hdecomp hnopre x hx
    simp only [dispatchEvent, hsome, hdecomp]
    exact mem_dispatchTiers_of_prefix f pre p T post hnopre x hx
  · intro tiers hsome hno pr hpr x hx
    obtain ⟨pre, post, hdecomp⟩ := List.append_of_mem hpr
    obtain ⟨p, T⟩ := pr
    simp only [dispatchEvent, hsome, hdecomp]
    refine mem_dispatchTiers_of_prefix f pre p T post ?_ x hx
    intro pr' hpr' y hy
    exact hno pr' (hdecomp ▸ List.mem_append_left _ hpr') y hy

/-- C3: `register` fails with the duplicate-handler `ValueError` exactly
when the handler is already registered for the event name at any
priority; `unregister` fails with the not-found `ValueError` exactly when
the handler is not registered for the event name; removing the last
handler of a group removes the group entry itself; and a dispatch
against an event name whose group list is empty behaves exactly as a
dispatch against a name that was never registered: no handler is invoked
and the result is "not consumed". -/
theorem registration_failure_modes :
    (∀ (m : EventMap H) (name : String) (h : H) (p : Int),
      (registerHandler m name h p).isOk = false ↔
        pslContains ((assocGet m name).getD []) h) ∧
    (∀ (m : EventMap H) (name : String) (h : H),
      (unregisterHandler m name h).isOk = false ↔
        ¬ pslContains ((assocGet m name).getD []) h) ∧
    (∀ (p : Int) (o : H) (rest : PSL H), pslRemove o ((p, [o]) :: rest) = .ok rest) ∧
    (∀ (m : EventMap H) (name : String) (f : H → HResult),
      assocGet m name = some [] ∨ assocGet m name = none →
      dispatchEvent m name f = ([], false)) := by
  refine ⟨?_, ?_, ?_, ?_⟩
  · intro m name h p
    by_cases hcont : pslContains ((assocGet m name).getD []) h
    · have hadd : pslAdd p h ((assocGet m name).getD []) =
          .error "ValueError: has already been added" := by
        unfold pslAdd
        rw [if_pos hcont]
      simp only [registerHandler, hadd, Except.isOk, Except.toBool]
      simpa using hcont
    · have hadd : pslAdd p h ((assocGet m name).getD []) =
          .ok (pslInsert p h ((assocGet m name).getD [])) := by
        unfold pslAdd
        rw [if_neg hcont]
      simp only [registerHandler, hadd, Except.isOk, Except.toBool]
      simpa using hcont
  · intro m name h
    have key := pslRemove_isOk_false_iff h ((assocGet m name).getD [])
    cases hrem : pslRemove h ((assocGet m name).getD []) with
    | ok r =>
      rw [hrem] at key
      simp only [unregisterHandler, hrem, Except.isOk, Except.toBool] at key ⊢
      exact key
    | error e =>
      rw [hrem] at key
      simp only [unregisterHandler, hrem, Except.isOk, Except.toBool] at key ⊢
      exact key
  · intro p o rest
    simp [pslRemove]
  · intro m name f hget
    rcases hget with hget | hget <;> simp [dispatchEvent, hget, dispatchTiers]

/-- Witness for C3 at concrete states: re-registering handler 7 fails;
unregistering the never-registered handler 9 fails; removing the last
handler of the priority-0 group deletes the group; dispatch against the
emptied table invokes nothing and reports "not consumed". -/
theorem registration_failure_modes_witness :
    (registerHandler [("message", [(0, [7])])] "message" (7 : Nat) 5).isOk = false ∧
    (unregisterHandler [("message", [(0, [7])])] "message" (9 : Nat)).isOk = false ∧
    pslRemove (7 : Nat) [(0, [7])] = .ok [] ∧
    dispatchEvent (H := Nat) [("message", [])] "message"
      (fun _ => HResult.noneVal) = ([], false) := by
  refine ⟨?_, ?_, ?_, ?_⟩
  · exact ((registration_failure_modes (H := Nat)).1 [("message", [(0, [7])])]
      "message" 7 5).mpr (by decide)
  · exact ((registration_failure_modes (H := Nat)).2.1 [("message", [(0, [7])])]
      "message" 9).mpr (by decide)
  · exact (registration_failure_modes (H := Nat)).2.2.1 0 7 []
  · exact (registration_failure_modes (H := Nat)).2.2.2 [("message", [])] "message" _
      (Or.inl rfl)

/-- C4: any sequence of successful `add`/`remove` operations, starting
from the empty handler group list of one event name, yields a list whose
group priorities are strictly descending (hence pairwise distinct),
whose groups' handler sets are all non-empty, and in which each handler
instance occurs in at most one group, at most once. -/
theorem psl_ops_preserve_invariant (ops : List (PslOp H)) (l : PSL H)
    (hrun : runOps ops [] = .ok l) : pslInv l := by
  refine runOps_inv ops ?_ hrun
  exact ⟨List.Pairwise.nil, by simp, List.nodup_nil⟩

/-- Witness for C4: a concrete successful operation sequence, whose
result satisfies the invariant by the theorem. -/
theorem psl_ops_preserve_invariant_witness :
    runOps [PslOp.add 5 1, PslOp.add 0 2, PslOp.add 0 3, PslOp.remove 2]
      ([] : PSL Nat) = .ok [(5, [1]), (0, [3])] ∧
    pslInv [(5, [(1 : Nat)]), (0, [3])] := by
  refine ⟨by rfl, ?_⟩
  exact psl_ops_preserve_invariant
    [PslOp.add 5 1, PslOp.add 0 2, PslOp.add 0 3, PslOp.remove 2]
    [(5, [1]), (0, [3])] (by rfl)

/-- C5 counterexample: `EventDispatcher.register` performs no namespace
check (the check lives only in `EventDecorator.__call__`), so registering
a handler on a dispatcher under a name outside its namespace — here the
per-network name `connected` on the global dispatcher, whose namespace is
`globalAllowedNames` — succeeds instead of being rejected. -/
theorem register_accepts_foreign_name :
    ¬ "connected" ∈ globalAllowedNames ∧
    (registerHandler ([] : EventMap Nat) "connected" 0 0).isOk = true := by
  constructor
  · decide
  · decide

/-- C5 (amended): an event name outside a dispatcher's (non-empty)
allowed-name set is rejected with `ValueError` when registration goes
through the dispatcher's event decorator, before any handler is
registered; a name inside the set passes through to the ordinary
registration.  Direct `register` calls are not checked. -/
theorem decorator_rejects_unknown_names
    (allowed : List String) (name : String) (m : EventMap H) (h : H) (p : Int)
    (hne : allowed ≠ []) :
    (¬ name ∈ allowed →
      decoratorRegister (some allowed) m name h p =
        .error "ValueError: Unknown event name") ∧
    (name ∈ allowed →
      decoratorRegister (some allowed) m name h p = registerHandler m name h p) := by
  constructor
  · intro hnm
    simp only [decoratorRegister, decoratorCheck, if_pos hne, if_neg hnm]
  · intro hm
    simp only [decoratorRegister, decoratorCheck, if_pos hne, if_pos hm]

/-- Witness for the amended C5: the global dispatcher's decorator rejects
the per-network name `connected` and admits the global name
`init_network_context`. -/
theorem decorator_rejects_unknown_names_witness :
    decoratorRegister (some globalAllowedNames) ([] : EventMap Nat) "connected" 0 0 =
      .error "ValueError: Unknown event name" ∧
    decoratorRegister (some globalAllowedNames) ([] : EventMap Nat)
      "init_network_context" 0 0 =
      registerHandler ([] : EventMap Nat) "init_network_context" 0 0 := by
  constructor
  · exact (decorator_rejects_unknown_names globalAllowedNames "connected"
      ([] : EventMap Nat) 0 0 (by decide)).1 (by decide)
  · exact (decorator_rejects_unknown_names globalAllowedNames "init_network_context"
      ([] : EventMap Nat) 0 0 (by decide)).2 (by decide)

/-- Witness for C2 at a concrete dispatcher state: handler 2 raises, yet
the dispatch outcome equals the exception-free outcome, handler 3 (its
sibling) and handler 4 (a lower-priority handler) both run, and the
return value shows no failure. -/
theorem handler_exception_isolated_witness :
    (dispatchEvent (H := Nat) [("message", [(5, [1]), (0, [2, 3]), (-10, [4])])]
        "message" (fun n => if n = 2 then HResult.exc else HResult.noneVal) =
      dispatchEvent (H := Nat) [("message", [(5, [1]), (0, [2, 3]), (-10, [4])])]
        "message" fun x => if x = 2 then HResult.noneVal else
          (fun n => if n = 2 then HResult.exc else HResult.noneVal) x) ∧
    (3 : Nat) ∈ (dispatchEvent (H := Nat)
      [("message", [(5, [1]), (0, [2, 3]), (-10, [4])])] "message"
      (fun n => if n = 2 then HResult.exc else HResult.noneVal)).1 ∧
    (4 : Nat) ∈ (dispatchEvent (H := Nat)
      [("message", [(5, [1]), (0, [2, 3]), (-10, [4])])] "message"
      (fun n => if n = 2 then HResult.exc else HResult.noneVal)).1 := by
  have h := handler_exception_isolated
    (H := Nat) [("message", [(5, [1]), (0, [2, 3]), (-10, [4])])] "message"
    (fun n => if n = 2 then HResult.exc else HResult.noneVal) 2 (by decide)
  refine ⟨h.1, ?_, ?_⟩
  · exact h.2.1 [(5, [1]), (0, [2, 3]), (-10, [4])] [(5, [1])] 0 [2, 3]
      [(-10, [4])] rfl rfl (by decide) 3 (by decide)
  · exact h.2.2 [(5, [1]), (0, [2, 3]), (-10, [4])] rfl (by decide)
      (-10, [4]) (by decide) 4 (by decide)

/-! ## Codec lemmas -/

/-- `takeWhile` up to the first occurrence of the separator. -/
theorem takeWhile_append_sep (sep : Char) :
    ∀ a b : List Char, ¬ sep ∈ a →
      ((a ++ sep :: b).takeWhile fun c => c != sep) = a := by
  intro a
  induction a with
  | nil =>
    intro b _
    simp [List.takeWhile_cons]
  | cons x xs ih =>
    intro b hna
    have hx : (x != sep) = true := by
      simp only [bne_iff_ne, ne_eq]
      intro hcon
      exact hna (hcon ▸ List.mem_cons_self _ _)
    simp only [List.cons_append, List.takeWhile_cons, hx, if_true]
    rw [ih b fun hm => hna (List.mem_cons_of_mem _ hm)]

/-- `dropWhile` up to the first occurrence of the separator. -/
theorem dropWhile_append_sep (sep : Char) :
    ∀ a b : List Char, ¬ sep ∈ a →
      ((a ++ sep :: b).dropWhile fun c => c != sep) = sep :: b := by
  intro a
  induction a with
  | nil =>
    intro b _
    simp [List.dropWhile_cons]
  | cons x xs ih =>
    intro b hna
    have hx : (x != sep) = true := by
      simp only [bne_iff_ne, ne_eq]
      intro hcon
      exact hna (hcon ▸ List.mem_cons_self _ _)
    simp only [List.cons_append, List.dropWhile_cons, hx, if_true]
    exact ih b fun hm => hna (List.mem_cons_of_mem _ hm)

/-- `split(sep, 1)` around the first occurrence of the separator. -/
theorem splitFirst_append (sep : Char) (a b : List Char) (ha : ¬ sep ∈ a) :
    splitFirst sep (a ++ sep :: b) = (a, b) := by
  unfold splitFirst
  rw [takeWhile_append_sep sep a b ha, dropWhile_append_sep sep a b ha]
  rfl

/-- A list whose head fails the predicate survives `dropWhile`. -/
theorem dropWhile_eq_self_of_head (p : Char → Bool) (l : List Char)
    (h : ∀ c, l.head? = some c → p c = false) : l.dropWhile p = l := by
  cases l with
  | nil => rfl
  | cons c t =>
    have hc : ¬ p c = true := by simp [h c rfl]
    rw [List.dropWhile_cons, if_neg hc]

/-- Conversely, a `dropWhile` fixed point has a head failing the
predicate. -/
theorem head_false_of_dropWhile_self (p : Char → Bool) (l : List Char)
    (hdw : l.dropWhile p = l) : ∀ c, l.head? = some c → p c = false := by
  intro c hc
  cases l with
  | nil => cases hc
  | cons a t =>
    simp only [List.head?_cons, Option.some.injEq] at hc
    rw [← hc]
    by_cases hp : p a = true
    · rw [List.dropWhile_cons, if_pos hp] at hdw
      have hlen := congrArg List.length hdw
      have hle := (List.dropWhile_sublist (l := t) p).length_le
      simp only [List.length_cons] at hlen
      omega
    · simpa using hp

/-- Truthiness of an optional string is non-emptiness. -/
theorem optTruthy_some_iff (l : List Char) :
    IrcPrefix.optTruthy (some l) = true ↔ l ≠ [] := by
  cases l <;> simp [IrcPrefix.optTruthy]

/-! ## Claim theorems (codec, CTCP, capability registry) -/

/-- C6: parsing the tagged chat line yields tags
`id ↦ 123, note ↦ a b`, origin `nick!user@host`, command `PRIVMSG`
and parameters `#chan`, `hello world`; parsing the numeric 001 reply
yields a name-only origin, the welcome numeric-reply identifier and
parameters `nick`, `Welcome`; both results retain the original
unmodified line. -/
theorem fromLine_examples :
    Message.fromLine "@id=123;note=a\\sb :nick!user@host PRIVMSG #chan :hello world".data =
      .ok ⟨IrcCommand.str "PRIVMSG".data,
        some ⟨"nick".data, some "user".data, some "host".data⟩,
        ["#chan".data, "hello world".data],
        [("id".data, TagValue.str "123".data), ("note".data, TagValue.str "a b".data)],
        some "@id=123;note=a\\sb :nick!user@host PRIVMSG #chan :hello world".data⟩ ∧
    Message.fromLine ":irc.example.org 001 nick :Welcome".data =
      .ok ⟨IrcCommand.reply ServerReply.RPL_WELCOME,
        some ⟨"irc.example.org".data, none, none⟩,
        ["nick".data, "Welcome".data], [],
        some ":irc.example.org 001 nick :Welcome".data⟩ := by
  exact ⟨by rfl, by rfl⟩

/-- C7 counterexample: the origin annotation with name `nick`, ident
`user` and no host is representable, but stringifies to `nick` (the
ident is dropped when the host is absent), which parses back without the
ident. -/
theorem prefix_roundtrip_counterexample :
    IrcPrefix.fromString
        (IrcPrefix.toStr ⟨"nick".data, some "user".data, none⟩) ≠
      ⟨"nick".data, some "user".data, none⟩ := by
  decide

/-- C7 (amended): stringification round-trips with parsing for every
origin annotation in the well-formed domain `IrcPrefix.wf`: absent
fields are `none` rather than empty, the name has no leading `:` and no
`@`, an ident occurs only alongside a host, the name has no `!` when a
host is present, and an ident has no `@`. -/
theorem prefix_roundtrip_amended (p : IrcPrefix) (hwf : IrcPrefix.wf p) :
    IrcPrefix.fromString (IrcPrefix.toStr p) = p := by
  obtain ⟨name, ident, host⟩ := p
  obtain ⟨hn, hnAt, hm⟩ := hwf
  simp only at hn hnAt hm
  cases host with
  | none =>
    cases ident with
    | some i => exact absurd hm (by simp)
    | none =>
      simp only [IrcPrefix.toStr, IrcPrefix.optTruthy, Bool.false_eq_true, if_false,
        List.append_nil]
      unfold IrcPrefix.fromString
      rw [hn, if_neg hnAt]
  | some h =>
    have hhne : h ≠ [] := by
      cases ident <;> exact hm.1
    obtain ⟨hd, tl, rfl⟩ : ∃ c t, h = c :: t := by
      cases h with
      | nil => exact absurd rfl hhne
      | cons c t => exact ⟨c, t, rfl⟩
    cases ident with
    | none =>
      obtain ⟨-, hnb⟩ := hm
      simp only [IrcPrefix.toStr, IrcPrefix.optTruthy, Bool.false_eq_true, if_false,
        if_true, Option.getD_some, List.nil_append]
      unfold IrcPrefix.fromString
      have hhead : ∀ c, (name ++ '@' :: hd :: tl).head? = some c → (c == ':') = false := by
        intro c hc
        cases name with
        | nil =>
          simp only [List.nil_append, List.head?_cons] at hc
          injection hc with hc
          subst hc
          decide
        | cons a t =>
          simp only [List.cons_append, List.head?_cons] at hc
          exact head_false_of_dropWhile_self _ _ hn c (by simpa using hc)
      rw [dropWhile_eq_self_of_head _ _ hhead]
      rw [if_pos (List.mem_append_right _ (List.mem_cons_self _ _))]
      rw [splitFirst_append '@' name (hd :: tl) hnAt]
      rw [if_neg hnb]
    | some i =>
      obtain ⟨-, hine, hnb, hiAt⟩ := hm
      obtain ⟨i0, it, rfl⟩ : ∃ c t, i = c :: t := by
        cases i with
        | nil => exact absurd rfl hine
        | cons c t => exact ⟨c, t, rfl⟩
      simp only [IrcPrefix.toStr, IrcPrefix.optTruthy, if_true, Option.getD_some,
        List.cons_append, List.append_assoc]
      unfold IrcPrefix.fromString
      have hshape : name ++ '!' :: i0 :: (it ++ '@' :: hd :: tl) =
          (name ++ '!' :: i0 :: it) ++ '@' :: hd :: tl := by
        simp [List.append_assoc]
      have hheadc : ∀ c, (name ++ '!' :: i0 :: (it ++ '@' :: hd :: tl)).head? = some c →
          (c == ':') = false := by
        intro c hc
        cases name with
        | nil =>
          simp only [List.nil_append, List.head?_cons] at hc
          injection hc with hc
          subst hc
          decide
        | cons a t =>
          simp only [List.cons_append, List.head?_cons] at hc
          exact head_false_of_dropWhile_self _ _ hn c (by simpa using hc)
      rw [dropWhile_eq_self_of_head _ _ hheadc, hshape]
      have hnoAt : ¬ '@' ∈ name ++ '!' :: i0 :: it := by
        intro hcon
        rcases List.mem_append.mp hcon with hcon | hcon
        · exact hnAt hcon
        · rcases List.mem_cons.mp hcon with hcon | hcon
          · cases hcon
          · exact hiAt hcon
      rw [if_pos (List.mem_append_right _ (List.mem_cons_self _ _))]
      rw [splitFirst_append '@' (name ++ '!' :: i0 :: it) (hd :: tl) hnoAt]
      rw [if_pos (List.mem_append_right _ (List.mem_cons_self _ _))]
      rw [splitFirst_append '!' name (i0 :: it) hnb]

/-- Witness for the amended C7: the full origin annotation
`nick!user@host` round-trips. -/
theorem prefix_roundtrip_amended_witness :
    IrcPrefix.fromString
        (IrcPrefix.toStr ⟨"nick".data, some "user".data, some "host".data⟩) =
      ⟨"nick".data, some "user".data, some "host".data⟩ := by
  exact prefix_roundtrip_amended ⟨"nick".data, some "user".data, some "host".data⟩
    ⟨by decide, by decide, by decide, by decide, by decide, by decide⟩

/-- The CTCP extraction bodies agree once the second parameter is in
hand (helper for the refinement theorem below). -/
theorem ctcpBody_eq (line : List Char) (pfx : Option IrcPrefix) :
    (if ¬ line.head? = some '\x01' ∨ ¬ line.getLast? = some '\x01' then
      (Except.ok none : Except String (Option Message))
    else
      let interior := pyRstrip line.tail.dropLast
      if interior = [] then .ok none
      else
        match pySplitChar1 ' ' interior with
        | [] => .error "ValueError: not enough values to unpack"
        | ctcpCmd :: restParams =>
          if ctcpCmd = [] then .ok none
          else
            let ctcpParams := match restParams with | [] => [] | r :: _ => pySplitWs r
            .ok (some ⟨IrcCommand.str (pyUpper ctcpCmd), pfx, ctcpParams, [], none⟩)) =
    (let interior := pyRstrip line.tail.dropLast
     let cmdTok := interior.takeWhile fun c => c != ' '
     if line.head? = some '\x01' ∧ line.getLast? = some '\x01' ∧
         interior ≠ [] ∧ cmdTok ≠ [] then
       .ok (some ⟨IrcCommand.str (pyUpper cmdTok), pfx,
         pySplitWs ((interior.dropWhile fun c => c != ' ').tail), [], none⟩)
     else .ok none) := by
  by_cases hA : line.head? = some '\x01'
  · by_cases hB : line.getLast? = some '\x01'
    · rw [if_neg (by tauto)]
      by_cases hC : pyRstrip line.tail.dropLast = []
      · simp [hC]
      · by_cases hsp : ' ' ∈ pyRstrip line.tail.dropLast
        · have hsplit : pySplitChar1 ' ' (pyRstrip line.tail.dropLast) =
              [(splitFirst ' ' (pyRstrip line.tail.dropLast)).1,
               (splitFirst ' ' (pyRstrip line.tail.dropLast)).2] := by
            unfold pySplitChar1
            rw [if_pos hsp]
          by_cases hD : (pyRstrip line.tail.dropLast).takeWhile (fun c => c != ' ') = []
          · simp only [hC, if_neg, hsplit]
            simp [splitFirst, hD, hA, hB, hC]
          · simp only [hC, if_neg, hsplit]
            simp [splitFirst, hD, hA, hB, hC]
        · have htake : (pyRstrip line.tail.dropLast).takeWhile (fun c => c != ' ') =
              pyRstrip line.tail.dropLast := by
            rw [List.takeWhile_eq_self_iff]
            intro x hx
            simp only [bne_iff_ne, ne_eq]
            intro he
            exact hsp (he ▸ hx)
          have hdrop : (pyRstrip line.tail.dropLast).dropWhile (fun c => c != ' ') = [] := by
            rw [List.dropWhile_eq_nil_iff]
            intro x hx
            simp only [bne_iff_ne, ne_eq]
            intro he
            exact hsp (he ▸ hx)
          simp [pySplitChar1, hsp, hC, htake, hdrop, hA, hB, pySplitWs, pySplitWsGo]
    · rw [if_pos (by tauto), if_neg (by tauto)]
  · rw [if_pos (by tauto), if_neg (by tauto)]

/-- C8 counterexample: extraction of a chat message with fewer than two
parameters does not return "none" — it raises `IndexError` (the second
parameter is indexed without a length check). -/
theorem ctcp_short_message_raises :
    ctcpFromMessage ⟨IrcCommand.str "PRIVMSG".data, none, [], [], none⟩ =
      .error "IndexError: list index out of range" ∧
    ctcpFromMessage ⟨IrcCommand.str "PRIVMSG".data, none, [], [], none⟩ ≠
      .ok none := by
  have h1 : ctcpFromMessage ⟨IrcCommand.str "PRIVMSG".data, none, [], [], none⟩ =
      .error "IndexError: list index out of range" := by rfl
  refine ⟨h1, ?_⟩
  rw [h1]
  simp

/-- C8 (amended): CTCP extraction agrees everywhere with the claim's
contract `ctcpExtractSpec` — no extraction for non-chat messages; an
`IndexError` for chat messages with fewer than two parameters; otherwise
nothing unless the second parameter is `0x01`-wrapped with a non-empty
trailing-trimmed interior and a non-empty first space-delimited token,
and on success the upper-cased token as command, the remaining tokens
split on whitespace as parameters, and the original origin annotation
preserved. -/
theorem ctcpFromMessage_eq_spec (msg : Message) :
    ctcpFromMessage msg = ctcpExtractSpec msg := by
  unfold ctcpFromMessage ctcpExtractSpec
  by_cases hcmd : msg.command = IrcCommand.str "PRIVMSG".data
  · rw [if_neg (not_not_intro hcmd), if_neg (not_not_intro hcmd)]
    cases hp : msg.params.get? 1 with
    | none =>
      have hlen : msg.params.length < 2 := by
        have := List.get?_eq_none.mp hp
        omega
      rw [if_pos hlen]
    | some line =>
      have hlt : 1 < msg.params.length := by
        rcases List.get?_eq_some.mp hp with ⟨h1, -⟩
        exact h1
      have hlen : ¬ msg.params.length < 2 := by omega
      have hsecond : msg.params.getD 1 [] = line := by
        rw [List.getD_eq_getElem?_getD, ← List.get?_eq_getElem?, hp]
        rfl
      rw [if_neg hlen, hsecond]
      exact ctcpBody_eq line msg.prfx
  · rw [if_pos hcmd, if_pos hcmd]

/-- Witness for the amended C8: a concrete wrapped CTCP chat message
extracts to the upper-cased command with its parameters, as the contract
computes. -/
theorem ctcpFromMessage_eq_spec_witness :
    ctcpFromMessage ⟨IrcCommand.str "PRIVMSG".data,
        some ⟨"nick".data, none, none⟩,
        ["#chan".data, "\x01version a  b\x01".data], [], none⟩ =
      .ok (some ⟨IrcCommand.str "VERSION".data, some ⟨"nick".data, none, none⟩,
        ["a".data, "b".data], [], none⟩) := by
  have h := ctcpFromMessage_eq_spec ⟨IrcCommand.str "PRIVMSG".data,
    some ⟨"nick".data, none, none⟩,
    ["#chan".data, "\x01version a  b\x01".data], [], none⟩
  exact h.trans (by rfl)

/-- C9: the payload built by both CTCP senders.  For a given (non-empty)
text the payload is `0x01`, the command, a single space and the text,
then `0x01`, as claimed; both senders build payloads identically.  But
for an omitted (`None`) text, `str.format` interpolates the four
characters `None`, so the payload is `0x01 command None 0x01` rather
than the claimed `0x01 command 0x01`: the code contradicts the evident
intent of its optional-text parameter (`text: str = None` guarded by
`if text:`). -/
theorem send_ctcp_payload_facts :
    sendCtcpPayload "VERSION".data none = "\x01VERSIONNone\x01".data ∧
    sendCtcpReplyPayload "VERSION".data none = "\x01VERSIONNone\x01".data ∧
    sendCtcpPayload "VERSION".data none ≠ "\x01VERSION\x01".data ∧
    sendCtcpPayload "VERSION".data (some "Shanghai v37".data) =
      "\x01VERSION Shanghai v37\x01".data ∧
    (∀ (c : List Char) (t : Option (List Char)),
      sendCtcpReplyPayload c t = sendCtcpPayload c t) := by
  refine ⟨by rfl, by rfl, by decide, by rfl, fun c t => rfl⟩

/-- After erasing the binding for a key from a dict with no duplicate
keys, the key is gone. -/
theorem not_mem_eraseP_keys {V : Type} (name : String) :
    ∀ l : List (String × V), (l.map Prod.fst).Nodup →
      ¬ name ∈ (l.eraseP fun kv => kv.1 == name).map Prod.fst := by
  intro l
  induction l with
  | nil =>
    intro _ h
    simp at h
  | cons kv rest ih =>
    intro hnd hmem
    obtain ⟨k, v⟩ := kv
    simp only [List.map_cons, List.nodup_cons] at hnd
    by_cases hk : k = name
    · rw [List.eraseP_cons_of_pos (by simp [hk])] at hmem
      exact hnd.1 (hk ▸ hmem)
    · rw [List.eraseP_cons_of_neg (by simp [hk])] at hmem
      simp only [List.map_cons, List.mem_cons] at hmem
      rcases hmem with hmem | hmem
      · exact hk hmem.symm
      · exact ih hnd.2 hmem

/-- C10: on a capability-extended context object, `add` fails exactly
when the name already resolves as a declared attribute (instance or
class) or as a previously added and not yet removed capability; `set`
and `remove` fail on a name never added (or already removed); and after
a successful `remove` of a capability name — one not shadowing a
declared attribute, with the dict-key uniqueness the table maintains — a
subsequent `add` of the same name succeeds. -/
theorem capability_registry_contract {V : Type} (s : Shadow V) (name : String) (v : V) :
    ((addAttribute s name v).isOk = false ↔
      (name ∈ s.instAttrs ∨ name ∈ s.classAttrs ∨ name ∈ s.added.map Prod.fst)) ∧
    (¬ name ∈ s.added.map Prod.fst → (setAttribute s name v).isOk = false) ∧
    (¬ name ∈ s.added.map Prod.fst → (removeAttribute s name).isOk = false) ∧
    (∀ s' : Shadow V, (s.added.map Prod.fst).Nodup →
      ¬ name ∈ s.instAttrs → ¬ name ∈ s.classAttrs →
      removeAttribute s name = .ok s' → (addAttribute s' name v).isOk = true) := by
  refine ⟨?_, ?_, ?_, ?_⟩
  · by_cases hh : hasAttr s name
    · have heq : addAttribute s name v = .error "KeyError: already defined" := by
        unfold addAttribute
        rw [if_pos hh]
      rw [heq]
      simp only [Except.isOk, Except.toBool, true_iff]
      exact hh
    · have heq : addAttribute s name v =
          .ok { s with added := dictSet name v s.added } := by
        unfold addAttribute
        rw [if_neg hh]
      rw [heq]
      simp only [Except.isOk, Except.toBool]
      constructor
      · intro hcon
        simp at hcon
      · intro hcon
        exact absurd hcon hh
  · intro hnm
    unfold setAttribute
    by_cases hi : name ∈ s.instAttrs
    · rw [if_pos hi]
      rfl
    · rw [if_neg hi, if_pos hnm]
      rfl
  · intro hnm
    unfold removeAttribute
    rw [if_pos hnm]
    rfl
  · intro s' hnd hi hc hrem
    unfold removeAttribute at hrem
    by_cases hnm : name ∈ s.added.map Prod.fst
    · rw [if_neg (not_not_intro hnm)] at hrem
      injection hrem with hrem
      subst hrem
      have hkey := not_mem_eraseP_keys name s.added hnd
      have hnot : ¬ hasAttr { s with added := s.added.eraseP fun kv => kv.1 == name } name := by
        rintro (h | h | h)
        · exact hi h
        · exact hc h
        · exact hkey h
      unfold addAttribute
      rw [if_neg hnot]
      rfl
    · rw [if_pos hnm] at hrem
      exact Except.noConfusion hrem

/-- Witness for C10 at concrete states: re-adding the present capability
`greet` fails; `set` and `remove` of the absent `greet` fail; after
removing `greet`, adding it again succeeds. -/
theorem capability_registry_contract_witness :
    (addAttribute ⟨["x"], ["m"], [("greet", (0 : Nat))]⟩ "greet" 1).isOk = false ∧
    (setAttribute (V := Nat) ⟨["x"], ["m"], []⟩ "greet" 1).isOk = false ∧
    (removeAttribute (V := Nat) ⟨["x"], ["m"], []⟩ "greet").isOk = false ∧
    (addAttribute ⟨["x"], ["m"], []⟩ "greet" (1 : Nat)).isOk = true := by
  refine ⟨?_, ?_, ?_, ?_⟩
  · exact (capability_registry_contract ⟨["x"], ["m"], [("greet", (0 : Nat))]⟩
      "greet" 1).1.mpr (Or.inr (Or.inr (by decide)))
  · exact (capability_registry_contract (V := Nat) ⟨["x"], ["m"], []⟩
      "greet" 1).2.1 (by decide)
  · exact (capability_registry_contract (V := Nat) ⟨["x"], ["m"], []⟩
      "greet" 1).2.2.1 (by decide)
  · exact (capability_registry_contract ⟨["x"], ["m"], [("greet", (0 : Nat))]⟩
      "greet" 1).2.2.2 ⟨["x"], ["m"], []⟩ (by decide) (by decide) (by decide) (by rfl)

end Shanghai
